import Mathlib

set_option autoImplicit false

/-!
Verification of the rust-spoa repository.

The repository ships a thin C entry point, `poa_func` in `src/poa_func.cpp`,
that feeds a batch of sequences (with per-symbol quality strings) to a
partial order alignment engine and returns the consensus as a freshly
allocated C string.  The engine itself (sequence graph, alignment engine,
graph merger and consensus extractor) is not part of the sources handed to
us, so those components are modelled from the specification; every such
definition carries a doc comment starting with "Modelled from the spec:".
The entry point `poa_func` is embedded directly from the C source.
-/

namespace RustSpoa

/-- Truncation of a C `int` to `int8_t`: two's-complement wrap into the
range [-128, 127].  This models the `(int8_t) m` (and friends) casts in
`poa_func` (src/poa_func.cpp). -/
def toInt8 (x : Int) : Int := (x + 128) % 256 - 128

/-- Error taxonomy of the engine (spec section 7): configuration errors at
engine creation, structural alignment mismatches at merge time, and the
defensive cycle detection in edge insertion. -/
inductive PoaError where
  | configurationError
  | badAlignment
  | graphCorruption
  deriving DecidableEq

/-- Result of the C entry point `poa_func`: a null pointer (the literal
`return (unsigned) 0` taken for zero sequences), an engine error escaping
the call, undefined behaviour from an out-of-bounds read of the `seqs` or
`quals` arrays, or a freshly allocated consensus string. -/
inductive CResult where
  | nullPtr
  | err (e : PoaError)
  | ub
  | consensus (s : List Char)
  deriving DecidableEq

def defChar : Char := 'A'

/-- Node of the alignment graph: one symbol plus aggregate weight
(spec section 3). -/
structure PNode where
  symbol : Char
  weight : Nat
  deriving DecidableEq

/-- Directed weighted edge between node ids (spec section 3). -/
structure PEdge where
  src : Nat
  dst : Nat
  weight : Nat
  deriving DecidableEq

/-- Modelled from the spec: the SequenceGraph component (spec sections 3
and 4.2), which is not among the provided sources.  Nodes live in an
indexed arena (ids are list positions) and edges reference nodes by id. -/
structure Graph where
  nodes : List PNode
  edges : List PEdge
  deriving DecidableEq

def Graph.empty : Graph := ⟨[], []⟩

def Graph.numNodes (g : Graph) : Nat := g.nodes.length

def defPNode : PNode := ⟨defChar, 0⟩

def Graph.symbolAt (g : Graph) (v : Nat) : Char := (g.nodes.getD v defPNode).symbol

def Graph.weightAt (g : Graph) (v : Nat) : Nat := (g.nodes.getD v defPNode).weight

def Graph.outEdges (g : Graph) (v : Nat) : List PEdge :=
  g.edges.filter (fun e => decide (e.src = v))

def Graph.inEdges (g : Graph) (v : Nat) : List PEdge :=
  g.edges.filter (fun e => decide (e.dst = v))

/-- Fuel-bounded reachability along directed edges: `true` when `v` can be
reached from `u` following at most `fuel` edges.  With `fuel` at least the
node count this decides reachability in an acyclic graph. -/
def Graph.reachB (g : Graph) (fuel : Nat) (u v : Nat) : Bool :=
  match fuel with
  | 0 => decide (u = v)
  | f + 1 => decide (u = v) || (g.outEdges u).any (fun e => g.reachB f e.dst v)

/-- Modelled from the spec: SequenceGraph.AddEdge (spec section 4.2).  If
the edge exists its weight is incremented; otherwise the edge is created,
except that an insertion which would close a cycle (the target can already
reach the source) fails with GraphCorruption and leaves the graph exactly
as it was.  The state-passing result makes the atomicity visible: the
first component is the graph observable after the call. -/
def Graph.AddEdge (g : Graph) (s d : Nat) (w : Nat) : Graph × Option PoaError :=
  if g.edges.any (fun e => decide (e.src = s) && decide (e.dst = d)) then
    ({ g with
        edges := g.edges.map (fun e =>
          if e.src = s ∧ e.dst = d then { e with weight := e.weight + w } else e) },
      none)
  else if g.reachB g.numNodes d s then
    (g, some PoaError.graphCorruption)
  else
    ({ g with edges := g.edges ++ [⟨s, d, w⟩] }, none)

/-- Append a fresh node to the arena, returning its id (spec section 4.2,
AddNode). -/
def Graph.addNode (g : Graph) (c : Char) (w : Nat) : Graph × Nat :=
  ({ g with nodes := g.nodes ++ [⟨c, w⟩] }, g.nodes.length)

/-- Increment the aggregate weight of an existing node (spec section 4.4,
case (a) of AddAlignment). -/
def Graph.bumpNode (g : Graph) (v : Nat) (w : Nat) : Graph :=
  { g with
    nodes := g.nodes.mapIdx (fun j nd =>
      if j = v then { nd with weight := nd.weight + w } else nd) }

/-- Alignment operations (spec section 3): match against an existing node,
mismatch against an existing node (the merger creates a new node), an
insertion (sequence symbol with no graph counterpart), or a deletion
(graph node with no sequence counterpart). -/
inductive AlignOp where
  | matchOp (v : Nat)
  | mismatchOp (v : Nat)
  | insertOp
  | deleteOp (v : Nat)
  deriving DecidableEq

/-- Whether an operation consumes one sequence symbol. -/
def AlignOp.consumes : AlignOp → Bool
  | .matchOp _ => true
  | .mismatchOp _ => true
  | .insertOp => true
  | .deleteOp _ => false

/-- The graph node referenced by an operation, when any. -/
def AlignOp.refId : AlignOp → Option Nat
  | .matchOp v => some v
  | .mismatchOp v => some v
  | .deleteOp v => some v
  | .insertOp => none

/-- Modelled from the spec: the mapping from a per-symbol confidence value
to a weight increment, left open by the spec (section 9) up to
monotonicity; we use the code point of the quality character. -/
def qualWeight (c : Char) : Nat := c.toNat

/-- Link the current node from the previous real node on the path, when
there is one (spec section 4.4). -/
def linkFrom (g : Graph) (prev : Option Nat) (v : Nat) (w : Nat) : Graph × Option PoaError :=
  match prev with
  | none => (g, none)
  | some p => g.AddEdge p v w

/-- Modelled from the spec: the merge loop of GraphMerger.AddAlignment
(spec section 4.4).  The operations are consumed in order together with the
(symbol, weight) pairs; matches bump an existing node, mismatches and
insertions create a new node, deletions leave the chain untouched, and
every step links the resulting node from the previous real node. -/
def mergeOps (g : Graph) (prev : Option Nat) :
    List AlignOp → List (Char × Nat) → Graph × Option PoaError
  | [], _ => (g, none)
  | AlignOp.deleteOp _ :: rest, sw => mergeOps g prev rest sw
  | AlignOp.matchOp v :: rest, (_, w) :: sw =>
      match linkFrom (g.bumpNode v w) prev v w with
      | (g2, none) => mergeOps g2 (some v) rest sw
      | (g2, some e) => (g2, some e)
  | AlignOp.mismatchOp _ :: rest, (c, w) :: sw =>
      match (g.addNode c w) with
      | (g1, nid) =>
        match linkFrom g1 prev nid w with
        | (g2, none) => mergeOps g2 (some nid) rest sw
        | (g2, some e) => (g2, some e)
  | AlignOp.insertOp :: rest, (c, w) :: sw =>
      match (g.addNode c w) with
      | (g1, nid) =>
        match linkFrom g1 prev nid w with
        | (g2, none) => mergeOps g2 (some nid) rest sw
        | (g2, some e) => (g2, some e)
  | _ :: _, [] => (g, some PoaError.badAlignment)

/-- Modelled from the spec: GraphMerger.AddAlignment (spec sections 4.4
and 6).  It fails with BadAlignment when the per-symbol weights do not
match the sequence length, when the consuming operation count does not
match the sequence length, or when an operation references a node id
absent from the graph; a failing call commits nothing (spec section 5). -/
def Graph.AddAlignment (g : Graph) (al : List AlignOp) (seq qual : List Char) :
    Graph × Option PoaError :=
  if qual.length ≠ seq.length then (g, some PoaError.badAlignment)
  else if al.countP (fun op => op.consumes) ≠ seq.length then (g, some PoaError.badAlignment)
  else if al.any (fun op =>
      match op.refId with
      | some v => decide (g.numNodes ≤ v)
      | none => false) then (g, some PoaError.badAlignment)
  else
    match mergeOps g none al (seq.zip (qual.map qualWeight)) with
    | (g2, none) => (g2, none)
    | (_, some e) => (g, some e)

/-- The immutable scoring configuration (spec section 4.1): alignment mode
and the six int8 score parameters. -/
structure AlignmentEngine where
  mode : Int
  m : Int
  n : Int
  g : Int
  e : Int
  q : Int
  c : Int
  deriving DecidableEq

/-- Modelled from the spec: AlignmentScoring.Create (spec section 4.1).
The mode must be one of 0 (local), 1 (global), 2 (semi-global); creation
fails with ConfigurationError when the match score is not positive or when
any of the four gap parameters is positive.  The spec leaves rejection of
a dominated second affine pair optional ("rejected or at least flagged"),
so it is not rejected here. -/
def AlignmentEngine.Create (mode m n g e q c : Int) : Except PoaError AlignmentEngine :=
  if mode ≠ 0 ∧ mode ≠ 1 ∧ mode ≠ 2 then Except.error PoaError.configurationError
  else if m ≤ 0 then Except.error PoaError.configurationError
  else if 0 < g ∨ 0 < e ∨ 0 < q ∨ 0 < c then Except.error PoaError.configurationError
  else Except.ok ⟨mode, m, n, g, e, q, c⟩

/-- One cell of the dynamic programming table (spec section 4.3): the best
score ending in a match or mismatch, in a gap in the graph under either
affine function, or in a gap in the sequence under either affine
function. -/
structure DPCell where
  hm : Int
  e1 : Int
  e2 : Int
  f1 : Int
  f2 : Int
  deriving DecidableEq

def negInf : Int := -1000000000

def dpDefault : DPCell := ⟨negInf, negInf, negInf, negInf, negInf⟩

/-- Best total score of a cell across the five tracks (spec section 4.3). -/
def DPCell.best (cl : DPCell) : Int :=
  max cl.hm (max (max cl.e1 cl.e2) (max cl.f1 cl.f2))

/-- One row of the table: the virtual start column plus one cell per
graph node. -/
structure DPRow where
  startCell : DPCell
  cells : List DPCell
  deriving DecidableEq

def DPRow.cellAt (r : DPRow) (v : Nat) : DPCell := r.cells.getD v dpDefault

/-- Predecessor cells of node `v` in a given row: the cells of the sources
of its incoming edges, or the virtual start cell when `v` has none. -/
def predCells (row : DPRow) (g : Graph) (v : Nat) : List DPCell :=
  match g.inEdges v with
  | [] => [row.startCell]
  | es => es.map (fun e => row.cellAt e.src)

/-- Match or mismatch score of two symbols under the engine scoring. -/
def subScore (en : AlignmentEngine) (a b : Char) : Int :=
  if a = b then en.m else en.n

/-- Local mode clamps every running score at the zero floor
(spec section 4.3); other modes leave scores unchanged. -/
def clampM (mode : Int) (x : Int) : Int := if mode = 0 then max x 0 else x

/-- Modelled from the spec: the row of the table before any sequence
symbol is consumed (spec section 4.3).  Only runs of deletions can have
happened, tracked by the two gap-in-sequence functions. -/
def mkRow0 (en : AlignmentEngine) (g : Graph) : DPRow :=
  (List.range g.numNodes).foldl
    (fun row v =>
      let ps := predCells row g v
      let f1 := clampM en.mode
        (ps.foldl (fun acc p => max acc (max (p.hm + en.g) (p.f1 + en.e))) negInf)
      let f2 := clampM en.mode
        (ps.foldl (fun acc p => max acc (max (p.hm + en.q) (p.f2 + en.c))) negInf)
      ⟨row.startCell,
       row.cells ++ [⟨clampM en.mode negInf, clampM en.mode negInf, clampM en.mode negInf, f1, f2⟩]⟩)
    ⟨⟨clampM en.mode 0, clampM en.mode negInf, clampM en.mode negInf,
      clampM en.mode negInf, clampM en.mode negInf⟩, []⟩

/-- Modelled from the spec: one dynamic programming row for the next
sequence symbol `ch` (spec section 4.3).  The match cell maximises over
the predecessors in the previous row; the two gap-in-graph tracks follow
the affine recurrence against the previous row at the same node; the two
gap-in-sequence tracks follow the affine recurrence against the current
row at the predecessors. -/
def mkRow (en : AlignmentEngine) (g : Graph) (prevRow : DPRow) (ch : Char) : DPRow :=
  let s0 := prevRow.startCell
  (List.range g.numNodes).foldl
    (fun row v =>
      let psPrev := predCells prevRow g v
      let psCur := predCells row g v
      let pcell := prevRow.cellAt v
      let hm := clampM en.mode
        (psPrev.foldl (fun acc p => max acc (p.best + subScore en ch (g.symbolAt v))) negInf)
      let e1 := clampM en.mode (max (pcell.hm + en.g) (pcell.e1 + en.e))
      let e2 := clampM en.mode (max (pcell.hm + en.q) (pcell.e2 + en.c))
      let f1 := clampM en.mode
        (psCur.foldl (fun acc p => max acc (max (p.hm + en.g) (p.f1 + en.e))) negInf)
      let f2 := clampM en.mode
        (psCur.foldl (fun acc p => max acc (max (p.hm + en.q) (p.f2 + en.c))) negInf)
      ⟨row.startCell, row.cells ++ [⟨hm, e1, e2, f1, f2⟩]⟩)
    ⟨⟨clampM en.mode negInf,
      clampM en.mode (max (s0.hm + en.g) (s0.e1 + en.e)),
      clampM en.mode (max (s0.hm + en.q) (s0.e2 + en.c)),
      clampM en.mode negInf, clampM en.mode negInf⟩, []⟩

/-- All rows of the table, one per consumed sequence position. -/
def dpRows (en : AlignmentEngine) (g : Graph) (seq : List Char) : List DPRow :=
  seq.foldl (fun rows ch => rows ++ [mkRow en g (rows.getLastD (mkRow0 en g)) ch]) [mkRow0 en g]

def rowAt (rows : List DPRow) (i : Nat) : DPRow := rows.getD i ⟨dpDefault, []⟩

/-- Traceback track tags for the five score tracks. -/
inductive DPTrack where
  | tM
  | tE1
  | tE2
  | tF1
  | tF2
  deriving DecidableEq

def trackScore (cl : DPCell) : DPTrack → Int
  | .tM => cl.hm
  | .tE1 => cl.e1
  | .tE2 => cl.e2
  | .tF1 => cl.f1
  | .tF2 => cl.f2

/-- Deterministic choice of the best track of a cell, preferring the
match track, then the gap functions in order, on ties. -/
def bestTrack (cl : DPCell) : DPTrack :=
  [DPTrack.tE1, DPTrack.tE2, DPTrack.tF1, DPTrack.tF2].foldl
    (fun b t => if trackScore cl t > trackScore cl b then t else b) DPTrack.tM

/-- Deterministic argmax over node ids: highest score first, smallest id
on ties (spec section 4.3, reproducible tie-breaking). -/
def pickBest (score : Nat → Int) : List Nat → Option Nat
  | [] => none
  | v :: rest =>
      some (rest.foldl
        (fun b u => if score u > score b ∨ (score u = score b ∧ u < b) then u else b) v)

def tbPreds (g : Graph) (v : Nat) : List Nat := (g.inEdges v).map (fun e => e.src)

def cellOf (rows : List DPRow) (i : Nat) : Option Nat → DPCell
  | none => (rowAt rows i).startCell
  | some v => (rowAt rows i).cellAt v

/-- Node ids with no outgoing edge, the notional terminal nodes used by
the global traceback start (spec section 4.3). -/
def sinkIds (g : Graph) : List Nat :=
  (List.range g.numNodes).filter (fun v => (g.outEdges v).isEmpty)

/-- Modelled from the spec: the traceback start cell (spec section 4.3).
Global mode ends at the last sequence position on a terminal node;
semi-global ends anywhere on the last row; local takes the global maximum
over every cell, with ties broken by smallest row then smallest node. -/
def chooseEnd (en : AlignmentEngine) (g : Graph) (rows : List DPRow) (k : Nat) : Nat × Nat :=
  if en.mode = 1 then
    let cands := if (sinkIds g).isEmpty then List.range g.numNodes else sinkIds g
    (k, (pickBest (fun v => ((rowAt rows k).cellAt v).best) cands).getD 0)
  else if en.mode = 2 then
    (k, (pickBest (fun v => ((rowAt rows k).cellAt v).best) (List.range g.numNodes)).getD 0)
  else
    ((List.range (k + 1)).foldl
      (fun b i =>
        match pickBest (fun v => ((rowAt rows i).cellAt v).best) (List.range g.numNodes) with
        | none => b
        | some v =>
          match b with
          | none => some (i, v)
          | some bp =>
            if ((rowAt rows i).cellAt v).best > ((rowAt rows bp.1).cellAt bp.2).best then
              some (i, v)
            else b)
      none).getD (k, 0)

/-- Modelled from the spec: the traceback walk (spec section 4.3).  One
alignment operation is reconstructed per step; ties among predecessors are
broken by smallest node id; reaching the virtual start (or, in local mode,
a zero cell) turns the remaining sequence positions into insertions. -/
def tbGo (en : AlignmentEngine) (g : Graph) (seq : List Char) (rows : List DPRow) :
    Nat → Nat → Option Nat → DPTrack → List AlignOp → List AlignOp
  | 0, i, _, _, acc => List.replicate i AlignOp.insertOp ++ acc
  | _ + 1, i, none, _, acc => List.replicate i AlignOp.insertOp ++ acc
  | fuel + 1, i, some v, tr, acc =>
    if en.mode = 0 ∧ trackScore (cellOf rows i (some v)) tr ≤ 0 then
      List.replicate i AlignOp.insertOp ++ acc
    else
      match tr with
      | DPTrack.tM =>
        match i with
        | 0 => acc
        | j + 1 =>
          let ch := seq.getD j defChar
          let op := if ch = g.symbolAt v then AlignOp.matchOp v else AlignOp.mismatchOp v
          match pickBest (fun p => (cellOf rows j (some p)).best) (tbPreds g v) with
          | some p => tbGo en g seq rows fuel j (some p) (bestTrack (cellOf rows j (some p))) (op :: acc)
          | none => tbGo en g seq rows fuel j none DPTrack.tM (op :: acc)
      | DPTrack.tE1 =>
        match i with
        | 0 => acc
        | j + 1 =>
          let pc := cellOf rows j (some v)
          let nt := if pc.hm + en.g ≥ pc.e1 + en.e then DPTrack.tM else DPTrack.tE1
          tbGo en g seq rows fuel j (some v) nt (AlignOp.insertOp :: acc)
      | DPTrack.tE2 =>
        match i with
        | 0 => acc
        | j + 1 =>
          let pc := cellOf rows j (some v)
          let nt := if pc.hm + en.q ≥ pc.e2 + en.c then DPTrack.tM else DPTrack.tE2
          tbGo en g seq rows fuel j (some v) nt (AlignOp.insertOp :: acc)
      | DPTrack.tF1 =>
        match pickBest
            (fun p => max ((cellOf rows i (some p)).hm + en.g) ((cellOf rows i (some p)).f1 + en.e))
            (tbPreds g v) with
        | some p =>
          let pc := cellOf rows i (some p)
          let nt := if pc.hm + en.g ≥ pc.f1 + en.e then DPTrack.tM else DPTrack.tF1
          tbGo en g seq rows fuel i (some p) nt (AlignOp.deleteOp v :: acc)
        | none => tbGo en g seq rows fuel i none DPTrack.tM (AlignOp.deleteOp v :: acc)
      | DPTrack.tF2 =>
        match pickBest
            (fun p => max ((cellOf rows i (some p)).hm + en.q) ((cellOf rows i (some p)).f2 + en.c))
            (tbPreds g v) with
        | some p =>
          let pc := cellOf rows i (some p)
          let nt := if pc.hm + en.q ≥ pc.f2 + en.c then DPTrack.tM else DPTrack.tF2
          tbGo en g seq rows fuel i (some p) nt (AlignOp.deleteOp v :: acc)
        | none => tbGo en g seq rows fuel i none DPTrack.tM (AlignOp.deleteOp v :: acc)

/-- Modelled from the spec: the dynamic programming aligner for a
non-empty graph (spec section 4.3): fill the table, choose the traceback
start by mode, walk back, and pad the unaligned sequence suffix with
insertions. -/
def dpAlign (en : AlignmentEngine) (seq : List Char) (g : Graph) : List AlignOp :=
  let k := seq.length
  let rows := dpRows en g seq
  let ev := chooseEnd en g rows k
  let tr := bestTrack ((rowAt rows ev.1).cellAt ev.2)
  let core := tbGo en g seq rows ((k + 1) * (g.numNodes + 2)) ev.1 (some ev.2) tr []
  core ++ List.replicate (k - ev.1) AlignOp.insertOp

/-- Modelled from the spec: AlignmentEngine.Align (spec section 4.3).  A
graph with no nodes yet is the documented trivial case: the sequence is
aligned entirely as insertions.  Otherwise the dual affine dynamic
programming sweep and traceback run. -/
def Align (en : AlignmentEngine) (seq : List Char) (g : Graph) : List AlignOp :=
  if g.numNodes = 0 then List.replicate seq.length AlignOp.insertOp
  else dpAlign en seq g

/-- Fuel-bounded best suffix score of a node (spec section 4.5): zero for
a node with no outgoing edges, otherwise the node weight plus the maximum
over outgoing edges of the edge weight plus the target suffix score. -/
def suffixScore (g : Graph) (fuel : Nat) (v : Nat) : Nat :=
  match fuel with
  | 0 => 0
  | f + 1 =>
    if (g.outEdges v).isEmpty then 0
    else g.weightAt v +
      (g.outEdges v).foldl (fun acc e => max acc (e.weight + suffixScore g f e.dst)) 0

/-- Modelled from the spec: the consensus walk start (spec section 4.5),
the node with the highest total initial score, smallest id on ties. -/
def startNode (g : Graph) : Nat :=
  (List.range g.numNodes).foldl
    (fun b v => if suffixScore g g.numNodes v > suffixScore g g.numNodes b then v else b) 0

/-- Deterministic choice of the next node of the consensus walk: the
outgoing edge whose target has the highest remaining suffix score,
breaking ties by smallest node id (spec section 4.5). -/
def bestNext (g : Graph) (fl : Nat) (es : List PEdge) : Nat :=
  match es with
  | [] => 0
  | e :: rest =>
      rest.foldl
        (fun b e2 =>
          if suffixScore g fl e2.dst > suffixScore g fl b ∨
             (suffixScore g fl e2.dst = suffixScore g fl b ∧ e2.dst < b) then e2.dst else b)
        e.dst

/-- The greedy consensus walk (spec section 4.5), emitting each visited
node symbol until a node with no outgoing edges is reached. -/
def walkG (g : Graph) (fl : Nat) : Nat → Nat → List Char
  | 0, _ => []
  | fuel + 1, v =>
    g.symbolAt v ::
      (if (g.outEdges v).isEmpty then []
       else walkG g fl fuel (bestNext g fl (g.outEdges v)))

/-- Modelled from the spec: ConsensusExtractor.GenerateConsensus (spec
section 4.5).  A graph with no nodes yields the defined empty consensus;
otherwise the walk starts from the best-scoring node. -/
def GenerateConsensus (g : Graph) : List Char :=
  if g.numNodes = 0 then [] else walkG g g.numNodes g.numNodes (startNode g)

/-- The align-and-merge loop of `poa_func` (src/poa_func.cpp, the `for`
loop over `i < num_seqs`), embedded with the same index-based access into
the populated sequence and quality vectors.  An engine error aborts the
batch at the failing index. -/
def poaLoop (en : AlignmentEngine) (sequences qualities : List (List Char))
    (num : Nat) : Nat → Nat → Graph → Graph × Option PoaError
  | 0, _, g => (g, none)
  | fuel + 1, i, g =>
    if i < num then
      match g.AddAlignment (Align en (sequences.getD i []) g)
          (sequences.getD i []) (qualities.getD i []) with
      | (g2, none) => poaLoop en sequences qualities num fuel (i + 1) g2
      | (g2, some e) => (g2, some e)
    else (g, none)

/-- Embedding of the C entry point `poa_func` (src/poa_func.cpp).  Zero
sequences short-circuit to the literal `return (unsigned) 0`, a null
pointer.  Otherwise the two input arrays are read at indices `0` to
`num_seqs - 1` (an out-of-bounds read is undefined behaviour), the engine
is created from the int8-truncated score parameters, every sequence is
aligned and merged in order, and the consensus is copied into a fresh
buffer. -/
def poa_func (seqs quals : List (List Char)) (num_seqs : Int)
    (l m n g e q c : Int) : CResult :=
  if num_seqs = 0 then CResult.nullPtr
  else if seqs.length < num_seqs.toNat ∨ quals.length < num_seqs.toNat then CResult.ub
  else
    match AlignmentEngine.Create l (toInt8 m) (toInt8 n) (toInt8 g) (toInt8 e) (toInt8 q) (toInt8 c) with
    | Except.error _ => CResult.err PoaError.configurationError
    | Except.ok en =>
      match poaLoop en (seqs.take num_seqs.toNat) (quals.take num_seqs.toNat)
          num_seqs.toNat num_seqs.toNat 0 Graph.empty with
      | (gr, none) => CResult.consensus (GenerateConsensus gr)
      | (_, some e2) => CResult.err e2

/-- The session control flow of the spec (section 2) as a structural fold:
align each (sequence, weights) pair against the current graph, merge it,
and only then touch the next pair. -/
def alignFold (en : AlignmentEngine) :
    List (List Char × List Char) → Graph → Graph × Option PoaError
  | [], g => (g, none)
  | (s, qu) :: rest, g =>
    match g.AddAlignment (Align en s g) s qu with
    | (g2, none) => alignFold en rest g2
    | (g2, some e) => (g2, some e)

/-- Finishing step of a session: a merged graph yields exactly one
consensus extraction, an error aborts the batch. -/
def finishRun : Graph × Option PoaError → CResult
  | (gr, none) => CResult.consensus (GenerateConsensus gr)
  | (_, some e) => CResult.err e

/-- A whole engine session on explicit sequence and quality lists:
engine creation, the align-and-merge fold, then one consensus. -/
def poaRun (sequences qualities : List (List Char)) (l m n g e q c : Int) : CResult :=
  match AlignmentEngine.Create l (toInt8 m) (toInt8 n) (toInt8 g) (toInt8 e) (toInt8 q) (toInt8 c) with
  | Except.error _ => CResult.err PoaError.configurationError
  | Except.ok en => finishRun (alignFold en (sequences.zip qualities) Graph.empty)

/-! ## Helper lemmas -/

/-- Integers congruent modulo 256 truncate to the same int8 value. -/
theorem toInt8_congr {a b : Int} (h : (a - b) % 256 = 0) : toInt8 a = toInt8 b := by
  unfold toInt8
  have h2 : (a + 128) % 256 = (b + 128) % 256 := by
    have hab : a + 128 - (b + 128) = a - b := by ring
    rw [Int.emod_eq_emod_iff_emod_sub_eq_zero, hab]
    exact h
  rw [h2]

/-- The index-based merge loop of the C source equals the structural
align-and-merge fold over the zipped suffix of the two vectors. -/
theorem poaLoop_eq_alignFold (en : AlignmentEngine) (ss qs : List (List Char)) (num : Nat)
    (h1 : ss.length = num) (h2 : qs.length = num) :
    ∀ fuel i g, num - i ≤ fuel →
      poaLoop en ss qs num fuel i g = alignFold en ((ss.drop i).zip (qs.drop i)) g := by
  intro fuel
  induction fuel with
  | zero =>
    intro i g hle
    rw [List.drop_eq_nil_of_le (by omega : ss.length ≤ i)]
    rfl
  | succ f ih =>
    intro i g hle
    by_cases hi : i < num
    · rw [poaLoop, if_pos hi]
      have hsi : i < ss.length := by omega
      have hqi : i < qs.length := by omega
      rw [List.drop_eq_getElem_cons hsi, List.drop_eq_getElem_cons hqi, List.zip_cons_cons]
      rw [List.getD_eq_getElem ss [] hsi, List.getD_eq_getElem qs [] hqi]
      simp only [alignFold]
      cases hA : Graph.AddAlignment g (Align en ss[i] g) ss[i] qs[i] with
      | mk g2 oe =>
        cases oe with
        | none => exact ih (i + 1) g2 (by omega)
        | some e => rfl
    · rw [poaLoop, if_neg hi]
      rw [List.drop_eq_nil_of_le (by omega : ss.length ≤ i)]
      rfl

/-- The C entry point, past its zero check and its array reads, is the
engine session on exactly the first `num_seqs` sequences and quality
strings. -/
theorem poa_func_eq_poaRun (seqs quals : List (List Char)) (ns : Int) (l m n g e q c : Int)
    (hns : ns ≠ 0) (hs : ns.toNat ≤ seqs.length) (hq : ns.toNat ≤ quals.length) :
    poa_func seqs quals ns l m n g e q c =
      poaRun (seqs.take ns.toNat) (quals.take ns.toNat) l m n g e q c := by
  unfold poa_func poaRun
  rw [if_neg hns, if_neg (by omega : ¬ (seqs.length < ns.toNat ∨ quals.length < ns.toNat))]
  cases hcr : AlignmentEngine.Create l (toInt8 m) (toInt8 n) (toInt8 g) (toInt8 e) (toInt8 q) (toInt8 c) with
  | error e2 => rfl
  | ok en =>
    dsimp only
    rw [poaLoop_eq_alignFold en (seqs.take ns.toNat) (quals.take ns.toNat) ns.toNat
        (by rw [List.length_take]; omega) (by rw [List.length_take]; omega)
        ns.toNat 0 Graph.empty (by omega)]
    rw [List.drop_zero, List.drop_zero]
    cases halign : alignFold en ((seqs.take ns.toNat).zip (quals.take ns.toNat)) Graph.empty with
    | mk gr oe => cases oe <;> rfl

/-- Valid parameters (mode in range, positive match, non-positive gap
parameters) make engine creation succeed. -/
theorem create_ok_of_valid (l m n g e q c : Int)
    (hl : l = 0 ∨ l = 1 ∨ l = 2) (hm : 0 < toInt8 m)
    (hg : toInt8 g ≤ 0) (he : toInt8 e ≤ 0) (hq : toInt8 q ≤ 0) (hc : toInt8 c ≤ 0) :
    AlignmentEngine.Create l (toInt8 m) (toInt8 n) (toInt8 g) (toInt8 e) (toInt8 q) (toInt8 c)
      = Except.ok ⟨l, toInt8 m, toInt8 n, toInt8 g, toInt8 e, toInt8 q, toInt8 c⟩ := by
  unfold AlignmentEngine.Create
  rw [if_neg (by tauto : ¬ (l ≠ 0 ∧ l ≠ 1 ∧ l ≠ 2))]
  rw [if_neg (by omega : ¬ toInt8 m ≤ 0)]
  rw [if_neg (by omega : ¬ (0 < toInt8 g ∨ 0 < toInt8 e ∨ 0 < toInt8 q ∨ 0 < toInt8 c))]

/-! ## The chain graph built by merging one sequence into the empty graph -/

/-- Nodes of the simple chain graph for one merged sequence: one node per
(symbol, weight) pair, in order. -/
def chainNodes (zl : List (Char × Nat)) : List PNode := zl.map (fun p => ⟨p.1, p.2⟩)

/-- Edges of the chain graph: node `i` points to node `i + 1`, carrying the
weight of the target symbol. -/
def chainEdges (zl : List (Char × Nat)) : List PEdge :=
  (List.range (zl.length - 1)).map (fun i => ⟨i, i + 1, (zl.getD (i + 1) (defChar, 0)).2⟩)

def chainGraph (zl : List (Char × Nat)) : Graph := ⟨chainNodes zl, chainEdges zl⟩

theorem chainNodes_length (zl : List (Char × Nat)) : (chainNodes zl).length = zl.length :=
  List.length_map _ _

theorem chainGraph_numNodes (zl : List (Char × Nat)) :
    (chainGraph zl).numNodes = zl.length :=
  chainNodes_length zl

theorem chainEdges_mem (zl : List (Char × Nat)) (e : PEdge) (he : e ∈ chainEdges zl) :
    e.src + 1 = e.dst ∧ e.dst < zl.length := by
  unfold chainEdges at he
  rcases List.mem_map.mp he with ⟨i, hi, rfl⟩
  have h2 := List.mem_range.mp hi
  refine ⟨rfl, ?_⟩
  show i + 1 < zl.length
  omega

theorem range_filter_eq (n v : Nat) :
    (List.range n).filter (fun i => decide (i = v)) = if v < n then [v] else [] := by
  induction n with
  | zero => simp
  | succ k ih =>
    rw [List.range_succ, List.filter_append, ih]
    by_cases hv : v = k
    · subst hv
      simp
    · by_cases hvk : v < k
      · have h1 : ¬ (k = v) := by omega
        have h2 : v < k + 1 := by omega
        simp [h1, hvk, h2]
      · have h1 : ¬ (k = v) := by omega
        have h2 : ¬ v < k + 1 := by omega
        simp [h1, hvk, h2]

theorem outEdges_chain (zl : List (Char × Nat)) (v : Nat) :
    (chainGraph zl).outEdges v =
      if v + 1 < zl.length then [⟨v, v + 1, (zl.getD (v + 1) (defChar, 0)).2⟩] else [] := by
  show (chainEdges zl).filter (fun e => decide (e.src = v)) = _
  unfold chainEdges
  rw [List.filter_map]
  have hcong : (List.range (zl.length - 1)).filter
      ((fun e => decide (e.src = v)) ∘
        (fun i => (⟨i, i + 1, (zl.getD (i + 1) (defChar, 0)).2⟩ : PEdge)))
      = (List.range (zl.length - 1)).filter (fun i => decide (i = v)) := by
    apply List.filter_congr
    intro a _
    rfl
  rw [hcong, range_filter_eq]
  by_cases hv : v < zl.length - 1
  · rw [if_pos hv, if_pos (by omega)]
    rfl
  · rw [if_neg hv, if_neg (by omega)]
    rfl

theorem symbolAt_chain (zl : List (Char × Nat)) (v : Nat) :
    (chainGraph zl).symbolAt v = (zl.getD v (defChar, 0)).1 := by
  show ((chainNodes zl).getD v defPNode).symbol = _
  unfold chainNodes
  have hd : defPNode = (fun (p : Char × Nat) => (⟨p.1, p.2⟩ : PNode)) (defChar, 0) := rfl
  rw [hd, List.getD_map]

theorem weightAt_chain (zl : List (Char × Nat)) (v : Nat) :
    (chainGraph zl).weightAt v = (zl.getD v (defChar, 0)).2 := by
  show ((chainNodes zl).getD v defPNode).weight = _
  unfold chainNodes
  have hd : defPNode = (fun (p : Char × Nat) => (⟨p.1, p.2⟩ : PNode)) (defChar, 0) := rfl
  rw [hd, List.getD_map]

theorem reachB_of_no_out (g : Graph) (fuel u v : Nat) (h : g.outEdges u = []) :
    g.reachB fuel u v = decide (u = v) := by
  cases fuel with
  | zero => rfl
  | succ f =>
    unfold Graph.reachB
    rw [h]
    simp

/-- Inserting a genuinely new edge whose target has no outgoing edges
passes both AddEdge checks and appends the edge. -/
theorem addEdge_fresh (g : Graph) (s d : Nat) (w : Nat)
    (hne : ∀ e ∈ g.edges, ¬ (e.src = s ∧ e.dst = d))
    (hout : g.outEdges d = []) (hsd : d ≠ s) :
    g.AddEdge s d w = ({ g with edges := g.edges ++ [⟨s, d, w⟩] }, none) := by
  have h1 : ¬ (g.edges.any (fun e => decide (e.src = s) && decide (e.dst = d)) = true) := by
    intro hex
    rw [List.any_eq_true] at hex
    rcases hex with ⟨e, hmem, hb⟩
    rw [Bool.and_eq_true, decide_eq_true_eq, decide_eq_true_eq] at hb
    exact hne e hmem hb
  have h2 : ¬ (g.reachB g.numNodes d s = true) := by
    rw [reachB_of_no_out g g.numNodes d s hout]
    simp [hsd]
  unfold Graph.AddEdge
  rw [if_neg h1, if_neg h2]

theorem chainEdges_snoc (done : List (Char × Nat)) (c : Char) (w : Nat) (hd : done ≠ []) :
    chainEdges (done ++ [(c, w)])
      = chainEdges done ++ [⟨done.length - 1, done.length, w⟩] := by
  have hpos : 0 < done.length := List.length_pos.mpr hd
  unfold chainEdges
  have hlen : (done ++ [(c, w)]).length - 1 = (done.length - 1) + 1 := by
    rw [List.length_append]
    simp
    omega
  rw [hlen, List.range_succ, List.map_append]
  congr 1
  · apply List.map_congr_left
    intro i hi
    have hi2 : i < done.length - 1 := List.mem_range.mp hi
    have hget : (done ++ [(c, w)]).getD (i + 1) (defChar, 0) = done.getD (i + 1) (defChar, 0) := by
      rw [List.getD_eq_getElem _ _ (by rw [List.length_append]; omega),
          List.getD_eq_getElem _ _ (by omega)]
      exact List.getElem_append_left (by omega)
    rw [hget]
  · simp only [List.map_cons, List.map_nil]
    have hL : done.length - 1 + 1 = done.length := by omega
    have hget : (done ++ [(c, w)]).getD (done.length - 1 + 1) (defChar, 0) = (c, w) := by
      rw [hL, List.getD_eq_getElem _ _ (by rw [List.length_append]; simp)]
      simp
    rw [hget, hL]

theorem mergeOps_ins (sw : List (Char × Nat)) :
    ∀ done : List (Char × Nat), done ≠ [] →
      mergeOps (chainGraph done) (some (done.length - 1))
        (List.replicate sw.length AlignOp.insertOp) sw
        = (chainGraph (done ++ sw), none) := by
  induction sw with
  | nil =>
    intro done _
    simp [mergeOps, List.replicate]
  | cons p sw ih =>
    intro done hd
    obtain ⟨c, w⟩ := p
    have hpos : 0 < done.length := List.length_pos.mpr hd
    rw [List.length_cons, List.replicate_succ]
    have hnode : (chainGraph done).addNode c w
        = (⟨chainNodes done ++ [⟨c, w⟩], chainEdges done⟩, done.length) := by
      unfold Graph.addNode chainGraph
      rw [chainNodes_length]
    have hlink : linkFrom (⟨chainNodes done ++ [⟨c, w⟩], chainEdges done⟩ : Graph)
        (some (done.length - 1)) done.length w
        = (chainGraph (done ++ [(c, w)]), none) := by
      show Graph.AddEdge _ (done.length - 1) done.length w = _
      rw [addEdge_fresh]
      · congr 1
        unfold chainGraph
        congr 1
        · show chainNodes done ++ [⟨c, w⟩] = chainNodes (done ++ [(c, w)])
          unfold chainNodes
          rw [List.map_append]
          rfl
        · exact (chainEdges_snoc done c w hd).symm
      · intro e he hc
        obtain ⟨hc1, hc2⟩ := hc
        obtain ⟨hm1, hm2⟩ := chainEdges_mem done e he
        omega
      · show Graph.outEdges _ done.length = []
        show (chainEdges done).filter _ = []
        rw [List.filter_eq_nil_iff]
        intro e he
        obtain ⟨hm1, hm2⟩ := chainEdges_mem done e he
        simp only [decide_eq_true_eq]
        omega
      · omega
    rw [mergeOps, hnode]
    dsimp only
    rw [hlink]
    dsimp only
    have hrec := ih (done ++ [(c, w)]) (by simp)
    rw [List.length_append] at hrec
    have hL : done.length + [(c, w)].length - 1 = done.length := by simp
    rw [hL] at hrec
    rw [hrec, List.append_assoc]
    rfl

theorem mergeOps_chain (zl : List (Char × Nat)) :
    mergeOps Graph.empty none (List.replicate zl.length AlignOp.insertOp) zl
      = (chainGraph zl, none) := by
  cases zl with
  | nil => rfl
  | cons p sw =>
    obtain ⟨c, w⟩ := p
    rw [List.length_cons, List.replicate_succ]
    rw [mergeOps]
    have hnode : Graph.empty.addNode c w = (chainGraph [(c, w)], 0) := rfl
    rw [hnode]
    dsimp only
    show mergeOps (chainGraph [(c, w)]) (some 0)
        (List.replicate sw.length AlignOp.insertOp) sw = _
    have := mergeOps_ins sw [(c, w)] (by simp)
    simpa using this

theorem countP_replicate_ins (k : Nat) :
    (List.replicate k AlignOp.insertOp).countP (fun op => op.consumes) = k := by
  induction k with
  | zero => rfl
  | succ k2 ih =>
    rw [List.replicate_succ, List.countP_cons, ih]
    rfl

theorem any_replicate_ins (k : Nat) (f : AlignOp → Bool) (hf : f AlignOp.insertOp = false) :
    (List.replicate k AlignOp.insertOp).any f = false := by
  induction k with
  | zero => rfl
  | succ k2 ih =>
    rw [List.replicate_succ, List.any_cons, hf, ih]
    rfl

/-- Merging the all-insertions alignment of a fresh sequence into the
empty graph succeeds and produces exactly the chain graph of the
(symbol, weight) pairs. -/
theorem addAlignment_fresh (s qu : List Char) (hq : qu.length = s.length) :
    Graph.empty.AddAlignment (List.replicate s.length AlignOp.insertOp) s qu
      = (chainGraph (s.zip (qu.map qualWeight)), none) := by
  have h1 : ¬ qu.length ≠ s.length := fun hcc => hcc hq
  have h2 : ¬ (List.replicate s.length AlignOp.insertOp).countP
      (fun op => op.consumes) ≠ s.length := by
    rw [countP_replicate_ins]
    exact fun hcc => hcc rfl
  have h3 : ¬ ((List.replicate s.length AlignOp.insertOp).any (fun op =>
      match op.refId with
      | some v => decide (Graph.empty.numNodes ≤ v)
      | none => false) = true) := by
    rw [any_replicate_ins]
    · simp
    · rfl
  unfold Graph.AddAlignment
  rw [if_neg h1, if_neg h2, if_neg h3]
  have hzlen : (s.zip (qu.map qualWeight)).length = s.length := by
    rw [List.length_zip, List.length_map, hq]
    omega
  rw [← hzlen, mergeOps_chain]

/-! ## Consensus extraction on a chain graph -/

/-- Suffix score of the head node of a chain suffix: zero for the last
node, otherwise own weight plus edge weight plus the score of the rest. -/
def chainScore : List (Char × Nat) → Nat
  | [] => 0
  | [_] => 0
  | (_, w) :: b :: t => w + (b.2 + chainScore (b :: t))

theorem chainScore_singleton (a : Char × Nat) : chainScore [a] = 0 := by
  obtain ⟨c, w⟩ := a
  rfl

theorem suffixScore_chain (zl : List (Char × Nat)) :
    ∀ fuel v : Nat, v < zl.length → zl.length - v ≤ fuel →
      suffixScore (chainGraph zl) fuel v = chainScore (zl.drop v) := by
  intro fuel
  induction fuel with
  | zero => intro v hv hle; omega
  | succ f ih =>
    intro v hv hle
    rw [suffixScore]
    by_cases hv2 : v + 1 < zl.length
    · have hout := outEdges_chain zl v
      rw [if_pos hv2] at hout
      rw [hout]
      rw [if_neg (by simp : ¬ ([(⟨v, v + 1, (zl.getD (v + 1) (defChar, 0)).2⟩ : PEdge)]).isEmpty = true)]
      rw [List.foldl_cons, List.foldl_nil]
      rw [ih (v + 1) hv2 (by omega)]
      rw [weightAt_chain]
      rw [List.drop_eq_getElem_cons hv, List.drop_eq_getElem_cons hv2]
      rw [List.getD_eq_getElem zl (defChar, 0) hv, List.getD_eq_getElem zl (defChar, 0) hv2]
      have hz : max 0 ((zl[v + 1]).2 + chainScore (zl[v + 1] :: zl.drop (v + 1 + 1)))
          = (zl[v + 1]).2 + chainScore (zl[v + 1] :: zl.drop (v + 1 + 1)) := Nat.zero_max _
      rw [hz]
      rcases h1 : zl[v] with ⟨c1, w1⟩
      rcases h2 : zl[v + 1] with ⟨c2, w2⟩
      rfl
    · have hout := outEdges_chain zl v
      rw [if_neg hv2] at hout
      rw [hout]
      rw [if_pos (by simp : (([] : List PEdge)).isEmpty = true)]
      have hlen : (zl.drop v).length = 1 := by
        rw [List.length_drop]
        omega
      rcases List.length_eq_one.mp hlen with ⟨a, ha⟩
      rw [ha, chainScore_singleton]

theorem chainScore_le_cons (a : Char × Nat) (t : List (Char × Nat)) :
    chainScore t ≤ chainScore (a :: t) := by
  cases t with
  | nil => exact Nat.le_refl 0
  | cons b t2 =>
    obtain ⟨c, w⟩ := a
    show chainScore (b :: t2) ≤ w + (b.2 + chainScore (b :: t2))
    omega

theorem chainScore_drop_le (v : Nat) : ∀ zl : List (Char × Nat),
    chainScore (zl.drop v) ≤ chainScore zl := by
  induction v with
  | zero => intro zl; rw [List.drop_zero]
  | succ v2 ih =>
    intro zl
    cases zl with
    | nil => exact Nat.le_refl 0
    | cons a t =>
      rw [List.drop_succ_cons]
      exact Nat.le_trans (ih t) (chainScore_le_cons a t)

theorem foldl_argmax_stay (f : Nat → Nat) : ∀ (xs : List Nat) (b : Nat),
    (∀ v ∈ xs, ¬ f v > f b) →
    xs.foldl (fun b2 v => if f v > f b2 then v else b2) b = b := by
  intro xs
  induction xs with
  | nil => intro b _; rfl
  | cons x xs ih =>
    intro b h
    rw [List.foldl_cons, if_neg (h x (by simp))]
    exact ih b (fun v hv => h v (by simp [hv]))

theorem startNode_chain (zl : List (Char × Nat)) (hzl : zl ≠ []) :
    startNode (chainGraph zl) = 0 := by
  have h0 : 0 < zl.length := List.length_pos.mpr hzl
  unfold startNode
  rw [chainGraph_numNodes]
  apply foldl_argmax_stay (fun v => suffixScore (chainGraph zl) zl.length v)
  intro v hv
  have hvlt : v < zl.length := List.mem_range.mp hv
  show ¬ suffixScore (chainGraph zl) zl.length v > suffixScore (chainGraph zl) zl.length 0
  rw [suffixScore_chain zl zl.length v hvlt (by omega),
      suffixScore_chain zl zl.length 0 h0 (by omega), List.drop_zero]
  have := chainScore_drop_le v zl
  omega

theorem walkG_chain (zl : List (Char × Nat)) (fl : Nat) :
    ∀ fuel v : Nat, v < zl.length → zl.length - v ≤ fuel →
      walkG (chainGraph zl) fl fuel v = (zl.drop v).map Prod.fst := by
  intro fuel
  induction fuel with
  | zero => intro v hv hle; omega
  | succ f ih =>
    intro v hv hle
    rw [walkG]
    by_cases hv2 : v + 1 < zl.length
    · have hout := outEdges_chain zl v
      rw [if_pos hv2] at hout
      rw [hout]
      rw [if_neg (by simp : ¬ ([(⟨v, v + 1, (zl.getD (v + 1) (defChar, 0)).2⟩ : PEdge)]).isEmpty = true)]
      show (chainGraph zl).symbolAt v :: walkG (chainGraph zl) fl f (v + 1) = _
      rw [ih (v + 1) hv2 (by omega)]
      rw [symbolAt_chain, List.getD_eq_getElem zl (defChar, 0) hv]
      rw [List.drop_eq_getElem_cons hv, List.map_cons]
    · have hout := outEdges_chain zl v
      rw [if_neg hv2] at hout
      rw [hout]
      rw [if_pos (by simp : (([] : List PEdge)).isEmpty = true)]
      rw [symbolAt_chain, List.getD_eq_getElem zl (defChar, 0) hv]
      have hlen : (zl.drop v).length = 1 := by
        rw [List.length_drop]
        omega
      rcases List.length_eq_one.mp hlen with ⟨a, ha⟩
      rw [ha, List.map_singleton]
      have : zl[v] = a := by
        have := List.drop_eq_getElem_cons hv
        rw [ha] at this
        have h2 : zl.drop (v + 1) = [] := by
          have := List.length_drop (v + 1) zl
          have hl2 : (zl.drop (v + 1)).length = 0 := by omega
          exact List.eq_nil_of_length_eq_zero hl2
        rw [h2] at this
        exact (List.cons_eq_cons.mp this.symm).1
      rw [this]

theorem generateConsensus_chain (zl : List (Char × Nat)) (hzl : zl ≠ []) :
    GenerateConsensus (chainGraph zl) = zl.map Prod.fst := by
  have h0 : 0 < zl.length := List.length_pos.mpr hzl
  unfold GenerateConsensus
  rw [chainGraph_numNodes]
  rw [if_neg (by omega : ¬ zl.length = 0)]
  rw [startNode_chain zl hzl]
  rw [walkG_chain zl zl.length zl.length 0 h0 (by omega), List.drop_zero]

/-! ## Claim theorems -/

/-- C1 (counterexample): with zero sequences `poa_func` does not return an
empty symbol sequence; it takes the literal `return (unsigned) 0` branch
and hands back a null pointer, which is not an allocated empty consensus
buffer. -/
theorem poa_func_zero_seqs_counterexample :
    poa_func [] [] 0 0 5 (-4) (-3) (-1) (-3) (-1) = CResult.nullPtr
    ∧ poa_func [] [] 0 0 5 (-4) (-3) (-1) (-3) (-1) ≠ CResult.consensus [] :=
  ⟨rfl, by decide⟩

/-- C1 (amended): when `poa_func` is called with zero sequences it returns
a null pointer, before any engine, graph or node is constructed — a
defined early return, not an engine error, but not an allocated empty
symbol sequence. -/
theorem poa_func_zero_seqs_nullPtr (seqs quals : List (List Char)) (l m n g e q c : Int) :
    poa_func seqs quals 0 l m n g e q c = CResult.nullPtr := by
  unfold poa_func
  rw [if_pos rfl]

/-- C2: for a call with `num_seqs > 0` whose engine creation succeeds, the
sequences are processed by the structural fold `alignFold` — one pair at a
time in index order, each aligned against the current graph and merged
into it before the next pair is touched — and `finishRun` applies
`GenerateConsensus` exactly once, after the fold over all `num_seqs`
pairs. -/
theorem poa_func_sequential_pipeline (seqs quals : List (List Char)) (ns : Int)
    (l m n g e q c : Int) (en : AlignmentEngine)
    (hns : 0 < ns) (hs : ns.toNat ≤ seqs.length) (hqlen : ns.toNat ≤ quals.length)
    (hen : AlignmentEngine.Create l (toInt8 m) (toInt8 n) (toInt8 g) (toInt8 e) (toInt8 q) (toInt8 c)
      = Except.ok en) :
    poa_func seqs quals ns l m n g e q c
      = finishRun (alignFold en ((seqs.take ns.toNat).zip (quals.take ns.toNat)) Graph.empty) := by
  rw [poa_func_eq_poaRun seqs quals ns l m n g e q c (by omega) hs hqlen]
  unfold poaRun
  rw [hen]

theorem poa_func_sequential_pipeline_witness :
    poa_func [['A']] [['!']] 1 1 5 (-4) (-3) (-1) (-3) (-1)
      = finishRun (alignFold ⟨1, 5, -4, -3, -1, -3, -1⟩
          (([['A']].take (1 : Int).toNat).zip ([['!']].take (1 : Int).toNat)) Graph.empty) :=
  poa_func_sequential_pipeline [['A']] [['!']] 1 1 5 (-4) (-3) (-1) (-3) (-1)
    ⟨1, 5, -4, -3, -1, -3, -1⟩ (by decide) (by decide) (by decide) rfl

/-- C3: `poa_func` is deterministic — two calls with identical ordered
sequence lists, identical quality lists, the same `num_seqs` and identical
scoring parameters return identical results. -/
theorem poa_func_deterministic
    (seqs1 quals1 : List (List Char)) (ns1 l1 m1 n1 g1 e1 q1 c1 : Int)
    (seqs2 quals2 : List (List Char)) (ns2 l2 m2 n2 g2 e2 q2 c2 : Int)
    (hseq : seqs1 = seqs2) (hqual : quals1 = quals2) (hns : ns1 = ns2)
    (hl : l1 = l2) (hm : m1 = m2) (hn : n1 = n2) (hg : g1 = g2)
    (he : e1 = e2) (hq : q1 = q2) (hc : c1 = c2) :
    poa_func seqs1 quals1 ns1 l1 m1 n1 g1 e1 q1 c1
      = poa_func seqs2 quals2 ns2 l2 m2 n2 g2 e2 q2 c2 := by
  subst hseq hqual hns hl hm hn hg he hq hc
  rfl

theorem poa_func_deterministic_witness :
    poa_func [['A']] [['!']] 1 0 5 (-4) (-3) (-1) (-3) (-1)
      = poa_func [['A']] [['!']] 1 0 5 (-4) (-3) (-1) (-3) (-1) :=
  poa_func_deterministic [['A']] [['!']] 1 0 5 (-4) (-3) (-1) (-3) (-1)
    [['A']] [['!']] 1 0 5 (-4) (-3) (-1) (-3) (-1)
    rfl rfl rfl rfl rfl rfl rfl rfl rfl rfl

/-- C4: single-sequence identity — one non-empty sequence with
well-formed weights, merged through the empty graph under accepted
scoring parameters, comes back from `poa_func` unchanged. -/
theorem poa_func_single_sequence_identity
    (s qu : List Char) (srest qrest : List (List Char)) (l m n g e q c : Int)
    (hs : s ≠ []) (hq : qu.length = s.length)
    (hl : l = 0 ∨ l = 1 ∨ l = 2) (hm : 0 < toInt8 m)
    (hg : toInt8 g ≤ 0) (he : toInt8 e ≤ 0) (hq2 : toInt8 q ≤ 0) (hc : toInt8 c ≤ 0) :
    poa_func (s :: srest) (qu :: qrest) 1 l m n g e q c = CResult.consensus s := by
  rw [poa_func_eq_poaRun (s :: srest) (qu :: qrest) 1 l m n g e q c (by omega)
      (by simp) (by simp)]
  show poaRun [s] [qu] l m n g e q c = CResult.consensus s
  unfold poaRun
  rw [create_ok_of_valid l m n g e q c hl hm hg he hq2 hc]
  show finishRun (alignFold ⟨l, toInt8 m, toInt8 n, toInt8 g, toInt8 e, toInt8 q, toInt8 c⟩
      [(s, qu)] Graph.empty) = CResult.consensus s
  rw [alignFold]
  have hAl : Align ⟨l, toInt8 m, toInt8 n, toInt8 g, toInt8 e, toInt8 q, toInt8 c⟩ s Graph.empty
      = List.replicate s.length AlignOp.insertOp := rfl
  rw [hAl, addAlignment_fresh s qu hq]
  show finishRun (chainGraph (s.zip (qu.map qualWeight)), none) = CResult.consensus s
  show CResult.consensus (GenerateConsensus (chainGraph (s.zip (qu.map qualWeight))))
      = CResult.consensus s
  have hzne : s.zip (qu.map qualWeight) ≠ [] := by
    have hlen : (s.zip (qu.map qualWeight)).length = s.length := by
      rw [List.length_zip, List.length_map, hq]
      omega
    intro hcc
    rw [hcc] at hlen
    exact hs (List.eq_nil_of_length_eq_zero hlen.symm)
  rw [generateConsensus_chain _ hzne]
  rw [List.map_fst_zip s (qu.map qualWeight) (by rw [List.length_map, hq])]

theorem poa_func_single_sequence_identity_witness :
    poa_func [['A', 'C']] [['!', '!']] 1 0 5 (-4) (-3) (-1) (-3) (-1)
      = CResult.consensus ['A', 'C'] :=
  poa_func_single_sequence_identity ['A', 'C'] ['!', '!'] [] [] 0 5 (-4) (-3) (-1) (-3) (-1)
    (by decide) rfl (Or.inl rfl) (by decide) (by decide) (by decide) (by decide) (by decide)

/-- C6: engine creation fails with ConfigurationError whenever the match
parameter handed to it is not positive or any of the four gap parameters
is positive, and under those scoring parameters no `poa_func` call
produces a consensus. -/
theorem create_rejects_invalid_scoring (l m n g e q c : Int)
    (h : toInt8 m ≤ 0 ∨ 0 < toInt8 g ∨ 0 < toInt8 e ∨ 0 < toInt8 q ∨ 0 < toInt8 c) :
    AlignmentEngine.Create l (toInt8 m) (toInt8 n) (toInt8 g) (toInt8 e) (toInt8 q) (toInt8 c)
      = Except.error PoaError.configurationError
    ∧ ∀ (seqs quals : List (List Char)) (ns : Int) (s : List Char),
        poa_func seqs quals ns l m n g e q c ≠ CResult.consensus s := by
  have hcr : AlignmentEngine.Create l (toInt8 m) (toInt8 n) (toInt8 g) (toInt8 e) (toInt8 q) (toInt8 c)
      = Except.error PoaError.configurationError := by
    unfold AlignmentEngine.Create
    by_cases h1 : l ≠ 0 ∧ l ≠ 1 ∧ l ≠ 2
    · rw [if_pos h1]
    · rw [if_neg h1]
      by_cases h2 : toInt8 m ≤ 0
      · rw [if_pos h2]
      · rw [if_neg h2, if_pos (by tauto)]
  refine ⟨hcr, ?_⟩
  intro seqs quals ns s
  unfold poa_func
  by_cases h0 : ns = 0
  · rw [if_pos h0]
    exact fun hcc => CResult.noConfusion hcc
  · rw [if_neg h0]
    by_cases hb : seqs.length < ns.toNat ∨ quals.length < ns.toNat
    · rw [if_pos hb]
      exact fun hcc => CResult.noConfusion hcc
    · rw [if_neg hb, hcr]
      exact fun hcc => CResult.noConfusion hcc

theorem create_rejects_invalid_scoring_witness :
    AlignmentEngine.Create 1 (toInt8 0) (toInt8 (-4)) (toInt8 (-3)) (toInt8 (-1)) (toInt8 (-3)) (toInt8 (-1))
      = Except.error PoaError.configurationError
    ∧ poa_func [['A']] [['!']] 1 1 0 (-4) (-3) (-1) (-3) (-1) ≠ CResult.consensus ['A'] :=
  ⟨(create_rejects_invalid_scoring 1 0 (-4) (-3) (-1) (-3) (-1) (Or.inl (by decide))).1,
   (create_rejects_invalid_scoring 1 0 (-4) (-3) (-1) (-3) (-1) (Or.inl (by decide))).2
     [['A']] [['!']] 1 ['A']⟩

/-- C7: inserting a new edge whose target can already reach its source
(the target is a topological ancestor of the source) fails with
GraphCorruption and the graph observable after the call is exactly the
graph from before the call. -/
theorem addEdge_cycle_rejected_atomically (g : Graph) (s d w : Nat)
    (hnew : (g.edges.any (fun e => decide (e.src = s) && decide (e.dst = d))) = false)
    (hcyc : g.reachB g.numNodes d s = true) :
    g.AddEdge s d w = (g, some PoaError.graphCorruption) := by
  unfold Graph.AddEdge
  rw [if_neg (by rw [hnew]; exact Bool.false_ne_true), if_pos hcyc]

theorem addEdge_cycle_rejected_atomically_witness :
    Graph.AddEdge ⟨[⟨defChar, 1⟩, ⟨defChar, 1⟩], [⟨0, 1, 1⟩]⟩ 1 0 5
      = (⟨[⟨defChar, 1⟩, ⟨defChar, 1⟩], [⟨0, 1, 1⟩]⟩, some PoaError.graphCorruption) :=
  addEdge_cycle_rejected_atomically ⟨[⟨defChar, 1⟩, ⟨defChar, 1⟩], [⟨0, 1, 1⟩]⟩ 1 0 5
    (by decide) (by decide)

/-- C8: the six score parameters reach the engine only through int8
truncation, so two calls whose score parameters agree modulo 256 are
indistinguishable, and an out-of-range value such as match = 300 is
silently reinterpreted (here as 44) rather than rejected: the call still
produces a consensus. -/
theorem poa_func_scores_truncated_mod_256
    (seqs quals : List (List Char)) (ns l : Int)
    (m1 n1 g1 e1 q1 c1 m2 n2 g2 e2 q2 c2 : Int)
    (hm : (m1 - m2) % 256 = 0) (hn : (n1 - n2) % 256 = 0) (hg : (g1 - g2) % 256 = 0)
    (he : (e1 - e2) % 256 = 0) (hq : (q1 - q2) % 256 = 0) (hc : (c1 - c2) % 256 = 0) :
    poa_func seqs quals ns l m1 n1 g1 e1 q1 c1 = poa_func seqs quals ns l m2 n2 g2 e2 q2 c2
    ∧ poa_func [['A', 'C']] [['!', '!']] 1 1 300 (-4) (-3) (-1) (-3) (-1)
        = CResult.consensus ['A', 'C'] := by
  constructor
  · unfold poa_func
    rw [toInt8_congr hm, toInt8_congr hn, toInt8_congr hg, toInt8_congr he,
        toInt8_congr hq, toInt8_congr hc]
  · decide

theorem poa_func_scores_truncated_mod_256_witness :
    (poa_func [['A']] [['!']] 1 1 300 (-4) (-3) (-1) (-3) (-1)
      = poa_func [['A']] [['!']] 1 1 44 (-4) (-3) (-1) (-3) (-1))
    ∧ poa_func [['A', 'C']] [['!', '!']] 1 1 300 (-4) (-3) (-1) (-3) (-1)
        = CResult.consensus ['A', 'C'] :=
  poa_func_scores_truncated_mod_256 [['A']] [['!']] 1 1
    300 (-4) (-3) (-1) (-3) (-1) 44 (-4) (-3) (-1) (-3) (-1)
    (by decide) (by decide) (by decide) (by decide) (by decide) (by decide)

/-- C9: the quality strings are mandatory at the `poa_func` interface:
with fewer than `num_seqs` entries in `quals` the call is undefined
behaviour, and when the arrays are long enough the call is exactly the
engine session on the first `num_seqs` pairs, the i-th merge receiving
`quals[i]` as its weight string. -/
theorem poa_func_quals_mandatory (seqs quals : List (List Char)) (ns l m n g e q c : Int)
    (hns : 0 < ns) :
    (quals.length < ns.toNat → poa_func seqs quals ns l m n g e q c = CResult.ub)
    ∧ (ns.toNat ≤ seqs.length → ns.toNat ≤ quals.length →
        poa_func seqs quals ns l m n g e q c
          = poaRun (seqs.take ns.toNat) (quals.take ns.toNat) l m n g e q c
        ∧ ∀ i : Nat, i < ns.toNat →
            ((seqs.take ns.toNat).zip (quals.take ns.toNat)).getD i ([], [])
              = (seqs.getD i [], quals.getD i [])) := by
  constructor
  · intro hlt
    unfold poa_func
    rw [if_neg (by omega : ¬ ns = 0), if_pos (Or.inr hlt)]
  · intro hs hql
    refine ⟨poa_func_eq_poaRun seqs quals ns l m n g e q c (by omega) hs hql, ?_⟩
    intro i hi
    have hiz : i < ((seqs.take ns.toNat).zip (quals.take ns.toNat)).length := by
      rw [List.length_zip, List.length_take, List.length_take]
      omega
    rw [List.getD_eq_getElem _ _ hiz, List.getElem_zip]
    rw [List.getD_eq_getElem seqs [] (by omega), List.getD_eq_getElem quals [] (by omega)]
    rw [List.getElem_take, List.getElem_take]

theorem poa_func_quals_mandatory_witness :
    poa_func [['A']] [] 1 0 5 (-4) (-3) (-1) (-3) (-1) = CResult.ub :=
  (poa_func_quals_mandatory [['A']] [] 1 0 5 (-4) (-3) (-1) (-3) (-1) (by decide)).1
    (by decide)

/-- C10: a call with negative `num_seqs` does not take the zero-sequence
null return, merges no sequences (the loop body never runs), and — when
the scoring parameters are accepted — returns the freshly allocated empty
consensus string, a result distinct from the null pointer of the
`num_seqs = 0` case. -/
theorem poa_func_negative_num_seqs_empty_consensus
    (seqs quals : List (List Char)) (ns l m n g e q c : Int)
    (hns : ns < 0)
    (hl : l = 0 ∨ l = 1 ∨ l = 2) (hm : 0 < toInt8 m)
    (hg : toInt8 g ≤ 0) (he : toInt8 e ≤ 0) (hq : toInt8 q ≤ 0) (hc : toInt8 c ≤ 0) :
    poa_func seqs quals ns l m n g e q c = CResult.consensus []
    ∧ CResult.consensus ([] : List Char) ≠ CResult.nullPtr := by
  have ht : ns.toNat = 0 := Int.toNat_eq_zero.mpr (by omega)
  refine ⟨?_, fun hcc => CResult.noConfusion hcc⟩
  unfold poa_func
  rw [if_neg (by omega : ¬ ns = 0), ht]
  rw [if_neg (by omega : ¬ (seqs.length < 0 ∨ quals.length < 0))]
  rw [create_ok_of_valid l m n g e q c hl hm hg he hq hc]
  rfl

theorem poa_func_negative_num_seqs_empty_consensus_witness :
    poa_func [] [] (-1) 1 5 (-4) (-3) (-1) (-3) (-1) = CResult.consensus []
    ∧ CResult.consensus ([] : List Char) ≠ CResult.nullPtr :=
  poa_func_negative_num_seqs_empty_consensus [] [] (-1) 1 5 (-4) (-3) (-1) (-3) (-1)
    (by decide) (Or.inr (Or.inl rfl)) (by decide) (by decide) (by decide) (by decide) (by decide)

end RustSpoa
